import Mathlib

/-!
# Verification of the Janus Cedar policy-statement splitter

This file gives a shallow embedding of `splitCedarPolicies` (the single-pass
lexical scanner of `src/authorization-service/policy-parser`) and proves /
refutes the specification's claims about it.

The TypeScript source iterates over the characters of the input document,
maintaining a pending buffer `buf`, three mode flags (`inString`,
`inLineComment`, `inBlockComment`), and a one-character lookback `prev`.
We embed documents as `List Char`, the mutable loop state as the structure
`ScanState`, and the loop body as `charStep` (the branches that consume one
character) together with `scanChars` (the driver, which also implements the
two-character lookahead branches that open comments and consume two
characters at once, mirroring the `i++` in the source).
-/

namespace Janus

/-- The scanner's mutable loop state, mirroring the local variables
`results`, `buf`, `inString`, `inLineComment`, `inBlockComment`, `prev` of
`splitCedarPolicies`.  The source initialises `prev` to the empty string,
which we model as `none`. -/
structure ScanState where
  results : List (List Char)
  buf : List Char
  inString : Bool
  inLineComment : Bool
  inBlockComment : Bool
  prev : Option Char
  deriving DecidableEq, Repr

/-- Initial state of one scan: empty results, empty buffer, all mode flags
off, no previous character. -/
def initState : ScanState :=
  ⟨[], [], false, false, false, none⟩

/-- Embedding of `String.prototype.trim` on the character lists we scan:
drop whitespace characters from both ends. -/
def trimChars (l : List Char) : List Char :=
  ((l.dropWhile Char.isWhitespace).reverse.dropWhile Char.isWhitespace).reverse

/-- One iteration of the scanner loop for the branches that consume a single
character: comment continuation/exit, quote toggling, the structural
terminator, and the plain-character fallthrough.  Transcribed branch by
branch from the loop body of `splitCedarPolicies`. -/
def charStep (s : ScanState) (ch : Char) : ScanState :=
  -- `if (inLineComment) { buf += ch; if (ch === "\n") inLineComment = false; ... }`
  if s.inLineComment then
    { s with buf := s.buf ++ [ch],
             inLineComment := if ch = '\n' then false else true,
             prev := some ch }
  -- `if (inBlockComment) { buf += ch; if (prev === "*" && ch === "/") ... }`
  else if s.inBlockComment then
    { s with buf := s.buf ++ [ch],
             inBlockComment := if s.prev = some '*' ∧ ch = '/' then false else true,
             prev := some ch }
  -- `if (ch === '"' && prev !== "\\") { inString = !inString; ... }`
  else if ch = '"' ∧ s.prev ≠ some '\\' then
    { s with buf := s.buf ++ [ch],
             inString := !s.inString,
             prev := some ch }
  -- `buf += ch; if (!inString && ch === ";") { push trimmed; buf = "" }`
  else if s.inString = false ∧ ch = ';' then
    { s with buf := [],
             results := if 0 < (trimChars (s.buf ++ [ch])).length
                        then s.results ++ [trimChars (s.buf ++ [ch])]
                        else s.results,
             prev := some ch }
  -- `buf += ch` (no terminator)
  else
    { s with buf := s.buf ++ [ch], prev := some ch }

/-- The scanner loop.  A comment-opening pair (`//` or `/*`) is recognised
only with two-character lookahead and consumes both characters (the source
increments `i` inside the branch); every other branch consumes one
character via `charStep`.  When fewer than two characters remain, `next` is
the empty string in the source and the lookahead branches cannot fire. -/
def scanChars : ScanState → List Char → ScanState
  | s, [] => s
  | s, [ch] => charStep s ch
  | s, ch :: next :: rest =>
    if s.inLineComment ∨ s.inBlockComment then
      scanChars (charStep s ch) (next :: rest)
    else if s.inString = false ∧ ch = '/' ∧ next = '/' then
      scanChars { s with buf := s.buf ++ [ch, next],
                         inLineComment := true,
                         prev := some '/' } rest
    else if s.inString = false ∧ ch = '/' ∧ next = '*' then
      scanChars { s with buf := s.buf ++ [ch, next],
                         inBlockComment := true,
                         prev := some '*' } rest
    else
      scanChars (charStep s ch) (next :: rest)

/-- The single error kind of the splitter: trailing non-whitespace content
left in the buffer after the scan (`throw new Error("Trailing content …")`). -/
inductive SplitError where
  | trailingContent
  deriving DecidableEq, Repr

/-- Assignment of the dense zero-based identifiers, in order, mirroring the
final loop `finalResults[...] = filteredResults[idx]` of the source. -/
def assignIds : Nat → List (List Char) → List (String × List Char)
  | _, [] => []
  | n, p :: ps => ("policy_" ++ toString n, p) :: assignIds (n + 1) ps

/-- Embedding of `splitCedarPolicies`.  Scans the document, raises
`trailingContent` when the trimmed leftover buffer is non-empty, otherwise
filters out empty statements and assigns identifiers.  The returned
association list models the insertion-ordered `Record<PolicyId, Policy>`. -/
def splitCedarPolicies (policyFile : List Char) :
    Except SplitError (List (String × List Char)) :=
  if 0 < (trimChars (scanChars initState policyFile).buf).length then
    .error .trailingContent
  else
    .ok (assignIds 0
      ((scanChars initState policyFile).results.filter (fun p => decide (0 < p.length))))

instance {ε α : Type} [DecidableEq ε] [DecidableEq α] : DecidableEq (Except ε α)
  | .ok a, .ok b => decidable_of_iff (a = b) (by simp)
  | .error a, .error b => decidable_of_iff (a = b) (by simp)
  | .ok _, .error _ => .isFalse (fun h => Except.noConfusion h)
  | .error _, .ok _ => .isFalse (fun h => Except.noConfusion h)

/-- Concatenation of the statement texts of a returned mapping, used to state
the round-trip property. -/
def joinStatements (m : List (String × List Char)) : List Char :=
  (m.map Prod.snd).foldr (· ++ ·) []

/-- Containment of a contiguous character segment, used to state substring
preservation. -/
def containsSeg (needle : List Char) : List Char → Bool
  | [] => decide (needle = [])
  | c :: rest => needle.isPrefixOf (c :: rest) || containsSeg needle rest

-- Sanity checks against the behaviour of the TypeScript tests.
example :
    splitCedarPolicies "permit(principal, action, resource);".toList =
      .ok [("policy_0", "permit(principal, action, resource);".toList)] := by
  decide

example : splitCedarPolicies "".toList = .ok [] := by decide

example : splitCedarPolicies "   \n  \t  ".toList = .ok [] := by decide

example :
    splitCedarPolicies "permit(principal, action, resource)".toList =
      .error .trailingContent := by
  decide

example :
    splitCedarPolicies "a; // c\n".toList = .error .trailingContent := by
  decide

example :
    splitCedarPolicies "a;;".toList =
      .ok [("policy_0", "a;".toList), ("policy_1", ";".toList)] := by
  decide

/-! ### Facts about trimming -/

theorem dropWhile_append_term (b : List Char) (c : Char) (hc : c.isWhitespace = false) :
    (b ++ [c]).dropWhile Char.isWhitespace = b.dropWhile Char.isWhitespace ++ [c] := by
  rw [List.dropWhile_append]
  split
  · rename_i h
    rw [List.isEmpty_iff] at h
    rw [h, List.nil_append]
    simp [List.dropWhile_cons, hc]
  · rfl

theorem trimChars_append_term (b : List Char) (c : Char) (hc : c.isWhitespace = false) :
    trimChars (b ++ [c]) = b.dropWhile Char.isWhitespace ++ [c] := by
  unfold trimChars
  rw [dropWhile_append_term b c hc, List.reverse_append]
  simp [hc]

theorem dropWhile_ws_idem (b : List Char) :
    (b.dropWhile Char.isWhitespace).dropWhile Char.isWhitespace =
      b.dropWhile Char.isWhitespace := by
  induction b with
  | nil => rfl
  | cons c cs ih =>
    by_cases h : c.isWhitespace = true
    · simp [List.dropWhile_cons, h, ih]
    · simp [List.dropWhile_cons, h]

theorem trimChars_eq_nil_iff (l : List Char) :
    trimChars l = [] ↔ ∀ c ∈ l, c.isWhitespace = true := by
  unfold trimChars
  rw [List.reverse_eq_nil_iff, List.dropWhile_eq_nil_iff]
  constructor
  · intro h c hc
    have hc' : c ∈ l.takeWhile Char.isWhitespace ++ l.dropWhile Char.isWhitespace := by
      rw [List.takeWhile_append_dropWhile]; exact hc
    rcases List.mem_append.mp hc' with h1 | h1
    · exact List.mem_takeWhile_imp h1
    · exact h c (List.mem_reverse.mpr h1)
  · intro h c hc
    exact h c (List.dropWhile_subset Char.isWhitespace (List.mem_reverse.mp hc))

theorem trimChars_ws_leading (w l : List Char) (hw : ∀ c ∈ w, c.isWhitespace = true) :
    trimChars (w ++ l) = trimChars l := by
  unfold trimChars
  rw [List.dropWhile_append_of_pos hw]

/-! ### Plain characters and whitespace scanning -/

theorem charStep_plain (s : ScanState) (ch : Char)
    (h1 : s.inLineComment = false) (h2 : s.inBlockComment = false)
    (h3 : ch ≠ '"') (h4 : ch ≠ ';') :
    charStep s ch = { s with buf := s.buf ++ [ch], prev := some ch } := by
  unfold charStep
  rw [if_neg (by simp [h1]), if_neg (by simp [h2]),
    if_neg (fun h => h3 h.1), if_neg (fun h => h4 h.2)]

theorem ws_ne_quote {ch : Char} (h : ch.isWhitespace = true) : ch ≠ '"' := by
  intro hc; subst hc; exact absurd h (by decide)

theorem ws_ne_semi {ch : Char} (h : ch.isWhitespace = true) : ch ≠ ';' := by
  intro hc; subst hc; exact absurd h (by decide)

theorem ws_ne_slash {ch : Char} (h : ch.isWhitespace = true) : ch ≠ '/' := by
  intro hc; subst hc; exact absurd h (by decide)

theorem scanChars_ws (l : List Char) :
    ∀ s : ScanState, s.inLineComment = false → s.inBlockComment = false →
    (∀ c ∈ l, c.isWhitespace = true) →
    ∃ p, scanChars s l = { s with buf := s.buf ++ l, prev := p } ∧
      (p = s.prev ∨ ∃ c, c.isWhitespace = true ∧ p = some c) := by
  induction l with
  | nil =>
    intro s _ _ _
    exact ⟨s.prev, by simp [scanChars], Or.inl rfl⟩
  | cons ch rest ih =>
    intro s h1 h2 hws
    have hch : ch.isWhitespace = true := hws ch (List.mem_cons_self ch rest)
    have hstep : charStep s ch = { s with buf := s.buf ++ [ch], prev := some ch } :=
      charStep_plain s ch h1 h2 (ws_ne_quote hch) (ws_ne_semi hch)
    have hrest : ∀ c ∈ rest, c.isWhitespace = true :=
      fun c hc => hws c (List.mem_cons_of_mem ch hc)
    cases rest with
    | nil =>
      refine ⟨some ch, ?_, Or.inr ⟨ch, hch, rfl⟩⟩
      rw [scanChars, hstep]
    | cons next rest2 =>
      have hns : ¬ (s.inLineComment = true ∨ s.inBlockComment = true) := by
        rw [h1, h2]; simp
      have hsl : ch ≠ '/' := ws_ne_slash hch
      rw [scanChars, if_neg hns,
        if_neg (by intro h; exact hsl h.2.1), if_neg (by intro h; exact hsl h.2.1), hstep]
      obtain ⟨p, hp, hpor⟩ := ih { s with buf := s.buf ++ [ch], prev := some ch }
        h1 h2 hrest
      refine ⟨p, ?_, ?_⟩
      · rw [hp]; simp
      · rcases hpor with h | h
        · exact Or.inr ⟨ch, hch, h⟩
        · exact Or.inr h

/-! ### Shape of every retained statement -/

/-- Every statement the scanner retains is of the form
`b.dropWhile isWhitespace ++ [';']`: leading whitespace stripped, final
character the structural terminator. -/
@[reducible] def GoodResults (rs : List (List Char)) : Prop :=
  ∀ p ∈ rs, ∃ b : List Char, p = b.dropWhile Char.isWhitespace ++ [';']

theorem charStep_goodResults (s : ScanState) (ch : Char)
    (h : GoodResults s.results) : GoodResults (charStep s ch).results := by
  unfold charStep
  split_ifs
  all_goals try exact h
  rename_i hsemi hlen
  intro p hp
  rcases List.mem_append.mp hp with hmem | hmem
  · exact h p hmem
  · rw [List.mem_singleton] at hmem
    subst hmem
    refine ⟨s.buf, ?_⟩
    rw [hsemi.2, trimChars_append_term s.buf ';' (by decide)]

theorem scanChars_goodResults (s : ScanState) (l : List Char)
    (h : GoodResults s.results) : GoodResults (scanChars s l).results := by
  induction s, l using scanChars.induct with
  | case1 s => rw [scanChars]; exact h
  | case2 s ch => rw [scanChars]; exact charStep_goodResults s ch h
  | case3 s ch next rest hc ih =>
    rw [scanChars, if_pos hc]
    exact ih (charStep_goodResults s ch h)
  | case4 s ch next rest hc hs ih =>
    rw [scanChars, if_neg hc, if_pos hs]
    exact ih h
  | case5 s ch next rest hc hs hb ih =>
    rw [scanChars, if_neg hc, if_neg hs, if_pos hb]
    exact ih h
  | case6 s ch next rest hc hs hb ih =>
    rw [scanChars, if_neg hc, if_neg hs, if_neg hb]
    exact ih (charStep_goodResults s ch h)

/-! ### Identifier assignment -/

theorem assignIds_length (n : Nat) (ps : List (List Char)) :
    (assignIds n ps).length = ps.length := by
  induction ps generalizing n with
  | nil => rfl
  | cons p ps ih => simp [assignIds, ih]

theorem assignIds_map_snd (n : Nat) (ps : List (List Char)) :
    (assignIds n ps).map Prod.snd = ps := by
  induction ps generalizing n with
  | nil => rfl
  | cons p ps ih => simp [assignIds, ih]

theorem assignIds_map_fst (n : Nat) (ps : List (List Char)) :
    (assignIds n ps).map Prod.fst =
      (List.range ps.length).map (fun i => "policy_" ++ toString (n + i)) := by
  induction ps generalizing n with
  | nil => rfl
  | cons p ps ih =>
    rw [assignIds, List.map_cons, ih (n + 1), List.length_cons, List.range_succ_eq_map,
      List.map_cons, List.map_map]
    congr 1
    apply List.map_congr_left
    intro i _
    simp only [Function.comp_apply]
    congr 2
    omega

/-! ### Inversion of a successful split -/

theorem splitCedarPolicies_ok (l : List Char) (m : List (String × List Char))
    (h : splitCedarPolicies l = .ok m) :
    trimChars (scanChars initState l).buf = [] ∧
      m = assignIds 0
        ((scanChars initState l).results.filter (fun p => decide (0 < p.length))) := by
  unfold splitCedarPolicies at h
  by_cases hc : 0 < (trimChars (scanChars initState l).buf).length
  · rw [if_pos hc] at h
    cases h
  · rw [if_neg hc] at h
    refine ⟨List.length_eq_zero.mp (by omega), ?_⟩
    cases h
    rfl

/-- C3: whenever the finished scan leaves any non-whitespace character in the
pending buffer, the split fails with the unique `trailingContent` error kind,
and no mapping (in particular no partial one) is ever returned. -/
theorem claim_C3_trailing_error (l : List Char)
    (h : ∃ c ∈ (scanChars initState l).buf, c.isWhitespace = false) :
    splitCedarPolicies l = .error .trailingContent ∧
      ∀ m, splitCedarPolicies l ≠ .ok m := by
  have htrim : trimChars (scanChars initState l).buf ≠ [] := by
    intro hnil
    obtain ⟨c, hc, hcw⟩ := h
    rw [trimChars_eq_nil_iff] at hnil
    rw [hnil c hc] at hcw
    cases hcw
  have hlen : 0 < (trimChars (scanChars initState l).buf).length :=
    List.length_pos.mpr htrim
  refine ⟨?_, ?_⟩
  · unfold splitCedarPolicies
    rw [if_pos hlen]
  · intro m hm
    unfold splitCedarPolicies at hm
    rw [if_pos hlen] at hm
    cases hm

/-- Witness for C3: the terminator-free example input from the spec leaves
its whole text in the buffer and is rejected. -/
theorem claim_C3_witness :
    splitCedarPolicies "permit(principal, action, resource)".toList =
        .error .trailingContent ∧
      ∀ m, splitCedarPolicies "permit(principal, action, resource)".toList ≠ .ok m :=
  claim_C3_trailing_error _ (by decide)

/-- C1 is refuted: the input `//c` consists only of a line comment, yet the
splitter raises `trailingContent` instead of returning an empty mapping —
comment text is appended to the pending buffer and never flushed. -/
theorem claim_C1_counterexample :
    splitCedarPolicies "//c".toList = .error .trailingContent := by
  decide

/-- C1 amended: empty and whitespace-only inputs succeed with an empty
mapping, but an input containing only comments with any non-whitespace
comment text raises `trailingContent` (shown here for a block comment; the
line-comment counterexample is separate). -/
theorem claim_C1_amended :
    (∀ l : List Char, (∀ c ∈ l, c.isWhitespace = true) →
        splitCedarPolicies l = .ok []) ∧
      splitCedarPolicies "/*c*/".toList = .error .trailingContent := by
  refine ⟨?_, by decide⟩
  intro l hws
  obtain ⟨p, hscan, -⟩ := scanChars_ws l initState rfl rfl hws
  have htrim : trimChars l = [] := (trimChars_eq_nil_iff l).mpr hws
  unfold splitCedarPolicies
  rw [hscan]
  simp [initState, htrim, assignIds]

/-- Witness for the amended C1 at a concrete whitespace-only input. -/
theorem claim_C1_witness :
    splitCedarPolicies "  \n\t ".toList = .ok [] :=
  claim_C1_amended.1 _ (by decide)

/-- C2 is refuted: the input `permit(principal, action, resource);;` yields
two statements, not one — the second terminator's segment is the lone
character `;`, which survives trimming and is retained. -/
theorem claim_C2_counterexample :
    (splitCedarPolicies "permit(principal, action, resource);;".toList).toOption.map
        List.length = some 2 := by
  decide

/-- C2 amended: a structural terminator always pushes its trimmed segment
(the segment contains the terminator itself, so it is never empty after
trimming and is never discarded); hence the example input yields two
statements, the second being the lone `;` keyed `policy_1`. -/
theorem claim_C2_amended :
    (∀ s : ScanState, s.inLineComment = false → s.inBlockComment = false →
        s.inString = false →
        (charStep s ';').results = s.results ++ [trimChars (s.buf ++ [';'])]) ∧
      splitCedarPolicies "permit(principal, action, resource);;".toList =
        .ok [("policy_0", "permit(principal, action, resource);".toList),
             ("policy_1", ";".toList)] := by
  refine ⟨?_, by decide⟩
  intro s h1 h2 h3
  have hpos : 0 < (trimChars (s.buf ++ [';'])).length := by
    rw [trimChars_append_term s.buf ';' (by decide)]
    simp
  unfold charStep
  rw [if_neg (by simp [h1]), if_neg (by simp [h2]),
    if_neg (by intro hq; exact absurd hq.1 (by decide)), if_pos ⟨h3, rfl⟩]
  simp [hpos]

/-- Witness for the amended C2: a concrete terminator step with a non-empty
buffer pushes exactly the trimmed segment. -/
theorem claim_C2_witness :
    (charStep ⟨[], ['a'], false, false, false, some 'a'⟩ ';').results =
      [] ++ [trimChars (['a'] ++ [';'])] :=
  claim_C2_amended.1 ⟨[], ['a'], false, false, false, some 'a'⟩ rfl rfl rfl

/-- C6: on success, every returned statement is already trimmed (trimming it
again changes nothing) and its final character is its own terminator `;`;
concretely, `permit(principal, action, resource);` yields exactly the one
statement `policy_0` equal to the input trimmed. -/
theorem claim_C6_trimmed_terminated :
    (∀ (l : List Char) (m : List (String × List Char)),
        splitCedarPolicies l = .ok m →
        ∀ kv ∈ m, trimChars kv.2 = kv.2 ∧ kv.2.getLast? = some ';') ∧
      splitCedarPolicies "permit(principal, action, resource);".toList =
        .ok [("policy_0", trimChars "permit(principal, action, resource);".toList)] := by
  refine ⟨?_, by decide⟩
  intro l m hm kv hkv
  obtain ⟨-, rfl⟩ := splitCedarPolicies_ok l m hm
  have hsnd : kv.2 ∈
      (scanChars initState l).results.filter (fun p => decide (0 < p.length)) := by
    have hmap := List.mem_map_of_mem Prod.snd hkv
    rw [assignIds_map_snd] at hmap
    exact hmap
  have hres : kv.2 ∈ (scanChars initState l).results := List.mem_of_mem_filter hsnd
  obtain ⟨b, hb⟩ := scanChars_goodResults initState l
    (fun p hp => absurd hp (List.not_mem_nil p)) kv.2 hres
  refine ⟨?_, ?_⟩
  · rw [hb, trimChars_append_term _ ';' (by decide), dropWhile_ws_idem]
  · rw [hb]
    exact List.getLast?_concat _

/-- Witness for C6 at a concrete two-character statement. -/
theorem claim_C6_witness :
    trimChars "a;".toList = "a;".toList ∧ ("a;".toList).getLast? = some ';' :=
  claim_C6_trimmed_terminated.1 "a;".toList [("policy_0", "a;".toList)] (by decide)
    ("policy_0", "a;".toList) (by decide)

/-- C7: on success the keys of the mapping are exactly `policy_0`,
`policy_1`, …, `policy_(k-1)` in insertion order, dense and zero-based over
the retained statements. -/
theorem claim_C7_dense_ids (l : List Char) (m : List (String × List Char))
    (h : splitCedarPolicies l = .ok m) :
    m.map Prod.fst = (List.range m.length).map (fun i => "policy_" ++ toString i) := by
  obtain ⟨-, rfl⟩ := splitCedarPolicies_ok l m h
  rw [assignIds_map_fst, assignIds_length]
  simp

/-- Witness for C7 at a concrete one-statement input. -/
theorem claim_C7_witness :
    ([("policy_0", "a;".toList)] : List (String × List Char)).map Prod.fst =
      (List.range ([("policy_0", "a;".toList)] : List (String × List Char)).length).map
        (fun i => "policy_" ++ toString i) :=
  claim_C7_dense_ids "a;".toList _ (by decide)

/-! ### String literals, comments, escapes -/

/-- C4: while the scanner is inside a double-quoted string literal (and not
in a comment), a scan step never emits a statement and appends the current
character verbatim to the pending buffer — so a terminator there is never a
split point; concretely, the spec's example input yields exactly one
statement whose text still contains the literal `"value;with;semicolons"`. -/
theorem claim_C4_string_semicolon :
    (∀ (s : ScanState) (ch : Char), s.inString = true →
        s.inLineComment = false → s.inBlockComment = false →
        (charStep s ch).results = s.results ∧
          (charStep s ch).buf = s.buf ++ [ch]) ∧
      splitCedarPolicies
          "permit(principal, action, resource) when \x7b attr == \"value;with;semicolons\" \x7d;".toList =
        .ok [("policy_0",
          "permit(principal, action, resource) when \x7b attr == \"value;with;semicolons\" \x7d;".toList)] ∧
      containsSeg "\"value;with;semicolons\"".toList
          "permit(principal, action, resource) when \x7b attr == \"value;with;semicolons\" \x7d;".toList =
        true := by
  refine ⟨?_, by decide, by decide⟩
  intro s ch hs h1 h2
  unfold charStep
  rw [if_neg (by simp [h1]), if_neg (by simp [h2])]
  by_cases hq : ch = '"' ∧ s.prev ≠ some '\\'
  · rw [if_pos hq]
    exact ⟨rfl, rfl⟩
  · rw [if_neg hq, if_neg (by simp [hs])]
    exact ⟨rfl, rfl⟩

/-- Witness for C4: a terminator processed while in-string emits nothing and
is appended to the buffer. -/
theorem claim_C4_witness :
    (charStep ⟨[], ['"'], true, false, false, some '"'⟩ ';').results = [] ∧
      (charStep ⟨[], ['"'], true, false, false, some '"'⟩ ';').buf = ['"'] ++ [';'] :=
  claim_C4_string_semicolon.1 ⟨[], ['"'], true, false, false, some '"'⟩ ';' rfl rfl rfl

/-- C5: while in a comment mode, the two-character comment-opening lookahead
is suspended (the scan always takes the one-character step), and that step
checks only the mode's own exit condition — newline for line comments, the
lookback-star-then-slash test for block comments — appending the character
verbatim and leaving the results, the string flag and the other fields
untouched (visible in the record updates). -/
theorem claim_C5_comment_modes :
    (∀ (s : ScanState) (ch next : Char) (rest : List Char),
        s.inLineComment = true ∨ s.inBlockComment = true →
        scanChars s (ch :: next :: rest) = scanChars (charStep s ch) (next :: rest)) ∧
      (∀ (s : ScanState) (ch : Char), s.inLineComment = true →
        charStep s ch = { s with buf := s.buf ++ [ch],
                                 inLineComment := if ch = '\n' then false else true,
                                 prev := some ch }) ∧
      (∀ (s : ScanState) (ch : Char), s.inLineComment = false → s.inBlockComment = true →
        charStep s ch = { s with buf := s.buf ++ [ch],
                                 inBlockComment := if s.prev = some '*' ∧ ch = '/'
                                                   then false else true,
                                 prev := some ch }) := by
  refine ⟨?_, ?_, ?_⟩
  · intro s ch next rest h
    rw [scanChars, if_pos h]
  · intro s ch h1
    unfold charStep
    rw [if_pos h1]
  · intro s ch h1 h2
    unfold charStep
    rw [if_neg (by simp [h1]), if_pos h2]

/-- Witness for C5: with the line-comment flag set, a terminator and a quote
in the lookahead window are handled by the plain comment step. -/
theorem claim_C5_witness :
    scanChars ⟨[], [], false, true, false, none⟩ (';' :: '"' :: []) =
      scanChars (charStep ⟨[], [], false, true, false, none⟩ ';') ['"'] :=
  claim_C5_comment_modes.1 ⟨[], [], false, true, false, none⟩ ';' '"' [] (Or.inl rfl)

/-- C8: outside comments a double quote toggles the string flag exactly when
the single preceding character is not a backslash; when the lookback is a
backslash the quote is literal (string flag unchanged, character appended,
nothing emitted).  The one-character lookback misclassifies an escaped
backslash followed by a closing quote: the document `"\\";` (open quote,
escaped backslash, closing quote, terminator) stays in-string forever, so
the terminator never splits and the split fails. -/
theorem claim_C8_escape_lookback :
    (∀ s : ScanState, s.inLineComment = false → s.inBlockComment = false →
        s.prev ≠ some '\\' →
        charStep s '"' = { s with buf := s.buf ++ ['"'],
                                  inString := !s.inString, prev := some '"' }) ∧
      (∀ s : ScanState, s.inLineComment = false → s.inBlockComment = false →
        s.prev = some '\\' →
        (charStep s '"').inString = s.inString ∧
          (charStep s '"').buf = s.buf ++ ['"'] ∧
          (charStep s '"').results = s.results) ∧
      splitCedarPolicies "\"\\\\\";".toList = .error .trailingContent := by
  refine ⟨?_, ?_, by decide⟩
  · intro s h1 h2 hp
    unfold charStep
    rw [if_neg (by simp [h1]), if_neg (by simp [h2]), if_pos ⟨rfl, hp⟩]
  · intro s h1 h2 hp
    unfold charStep
    rw [if_neg (by simp [h1]), if_neg (by simp [h2]),
      if_neg (by intro hq; exact hq.2 hp), if_neg (by intro hsemi; exact absurd hsemi.2 (by decide))]
    exact ⟨rfl, rfl, rfl⟩

/-- Witness for C8: from the initial state (no previous character) a quote
toggles the string flag on. -/
theorem claim_C8_witness :
    charStep initState '"' = { initState with buf := [] ++ ['"'],
                                              inString := !false, prev := some '"' } :=
  claim_C8_escape_lookback.1 initState rfl rfl (by decide)

/-- C10: opening a block comment records `'*'` (the consumed second opener
character) as the lookback, and the in-block step leaves comment mode
exactly when that lookback is `'*'` and the current character is `'/'`;
consequently in `/*/` the slash right after the opener closes the comment
immediately — concretely `a/*/;` splits as one ordinary statement instead of
swallowing the terminator inside an unclosed block comment. -/
theorem claim_C10_immediate_close :
    (∀ (s : ScanState) (rest : List Char),
        ¬(s.inLineComment = true ∨ s.inBlockComment = true) →
        s.inString = false →
        scanChars s ('/' :: '*' :: rest) =
          scanChars { s with buf := s.buf ++ ['/', '*'],
                             inBlockComment := true, prev := some '*' } rest) ∧
      (∀ (s : ScanState) (ch : Char), s.inLineComment = false → s.inBlockComment = true →
        ((charStep s ch).inBlockComment = false ↔ s.prev = some '*' ∧ ch = '/')) ∧
      splitCedarPolicies "a/*/;".toList = .ok [("policy_0", "a/*/;".toList)] := by
  refine ⟨?_, ?_, by decide⟩
  · intro s rest hc hs
    rw [scanChars, if_neg hc, if_neg (by intro h; exact absurd h.2.2 (by decide)),
      if_pos ⟨hs, rfl, rfl⟩]
  · intro s ch h1 h2
    unfold charStep
    rw [if_neg (by simp [h1]), if_pos h2]
    by_cases hx : s.prev = some '*' ∧ ch = '/'
    · simp [hx]
    · simp only [if_neg hx]
      constructor
      · intro hfalse
        exact absurd hfalse (by decide)
      · intro hcontra
        exact absurd hcontra hx

/-- Witness for C10: opening a block comment from the initial state sets the
lookback to `'*'`. -/
theorem claim_C10_witness :
    scanChars initState ('/' :: '*' :: []) =
      scanChars { initState with buf := [] ++ ['/', '*'],
                                 inBlockComment := true, prev := some '*' } [] :=
  claim_C10_immediate_close.1 initState [] (by decide) rfl

/-! ### Round-trip infrastructure: buffers equal up to leading whitespace -/

theorem dropWhile_ws_append_congr {b1 b2 : List Char}
    (h : b1.dropWhile Char.isWhitespace = b2.dropWhile Char.isWhitespace)
    (x : List Char) :
    (b1 ++ x).dropWhile Char.isWhitespace = (b2 ++ x).dropWhile Char.isWhitespace := by
  rw [List.dropWhile_append, List.dropWhile_append, h]

/-- Simulation relation between two scanner states: same mode flags, buffers
equal after stripping leading whitespace, and lookbacks that agree on the
only two facts the scanner ever reads from them (backslash for the escape
rule; star for the block-comment exit while in a block comment). -/
def SimRel (c d : ScanState) : Prop :=
  c.inString = d.inString ∧
  c.inLineComment = d.inLineComment ∧
  c.inBlockComment = d.inBlockComment ∧
  c.buf.dropWhile Char.isWhitespace = d.buf.dropWhile Char.isWhitespace ∧
  ((c.prev = some '\\') ↔ (d.prev = some '\\')) ∧
  (c.inBlockComment = true → ((c.prev = some '*') ↔ (d.prev = some '*')))

theorem charStep_sim (c d : ScanState) (ch : Char) (h : SimRel c d) :
    SimRel (charStep c ch) (charStep d ch) ∧
      ∃ e, (charStep c ch).results = c.results ++ e ∧
        (charStep d ch).results = d.results ++ e := by
  obtain ⟨hs, hlc, hbc, hbuf, hback, hstar⟩ := h
  by_cases h1 : c.inLineComment = true
  · have h1d : d.inLineComment = true := hlc.symm.trans h1
    unfold charStep
    rw [if_pos h1, if_pos h1d]
    exact ⟨⟨hs, rfl, hbc, dropWhile_ws_append_congr hbuf [ch], Iff.rfl, fun _ => Iff.rfl⟩,
      [], by simp, by simp⟩
  · by_cases h2 : c.inBlockComment = true
    · have h2d : d.inBlockComment = true := hbc.symm.trans h2
      have h1d : ¬ d.inLineComment = true := fun hx => h1 (hlc.trans hx)
      have hcond : (if c.prev = some '*' ∧ ch = '/' then false else true) =
          (if d.prev = some '*' ∧ ch = '/' then false else true) := by
        by_cases hp : c.prev = some '*' ∧ ch = '/'
        · rw [if_pos hp, if_pos ⟨(hstar h2).mp hp.1, hp.2⟩]
        · rw [if_neg hp, if_neg (fun hq => hp ⟨(hstar h2).mpr hq.1, hq.2⟩)]
      unfold charStep
      rw [if_neg h1, if_neg h1d, if_pos h2, if_pos h2d]
      exact ⟨⟨hs, hlc, hcond, dropWhile_ws_append_congr hbuf [ch], Iff.rfl, fun _ => Iff.rfl⟩,
        [], by simp, by simp⟩
    · have h1d : ¬ d.inLineComment = true := fun hx => h1 (hlc.trans hx)
      have h2d : ¬ d.inBlockComment = true := fun hx => h2 (hbc.trans hx)
      by_cases h3 : ch = '"' ∧ c.prev ≠ some '\\'
      · have h3d : ch = '"' ∧ d.prev ≠ some '\\' := ⟨h3.1, fun hx => h3.2 (hback.mpr hx)⟩
        unfold charStep
        rw [if_neg h1, if_neg h1d, if_neg h2, if_neg h2d, if_pos h3, if_pos h3d]
        exact ⟨⟨by rw [hs], hlc, hbc, dropWhile_ws_append_congr hbuf [ch], Iff.rfl,
          fun hx => absurd hx h2⟩, [], by simp, by simp⟩
      · have h3d : ¬(ch = '"' ∧ d.prev ≠ some '\\') :=
          fun hx => h3 ⟨hx.1, fun hc => hx.2 (hback.mp hc)⟩
        by_cases h4 : c.inString = false ∧ ch = ';'
        · have h4d : d.inString = false ∧ ch = ';' := ⟨hs.symm.trans h4.1, h4.2⟩
          obtain ⟨hstr, rfl⟩ := h4
          have htrim : trimChars (c.buf ++ [';']) = trimChars (d.buf ++ [';']) := by
            rw [trimChars_append_term _ _ (by decide),
              trimChars_append_term _ _ (by decide), hbuf]
          have hpos : 0 < (trimChars (c.buf ++ [';'])).length := by
            rw [trimChars_append_term _ _ (by decide)]; simp
          have hposd : 0 < (trimChars (d.buf ++ [';'])).length := by
            rw [trimChars_append_term _ _ (by decide)]; simp
          unfold charStep
          rw [if_neg h1, if_neg h1d, if_neg h2, if_neg h2d, if_neg h3, if_neg h3d,
            if_pos ⟨hstr, rfl⟩, if_pos h4d]
          refine ⟨⟨hs, hlc, hbc, rfl, Iff.rfl, fun hx => absurd hx h2⟩,
            [trimChars (c.buf ++ [';'])], ?_, ?_⟩
          · rw [if_pos hpos]
          · rw [if_pos hposd, htrim]
        · have h4d : ¬(d.inString = false ∧ ch = ';') :=
            fun hx => h4 ⟨hs.trans hx.1, hx.2⟩
          unfold charStep
          rw [if_neg h1, if_neg h1d, if_neg h2, if_neg h2d, if_neg h3, if_neg h3d,
            if_neg h4, if_neg h4d]
          exact ⟨⟨hs, hlc, hbc, dropWhile_ws_append_congr hbuf [ch], Iff.rfl,
            fun hx => absurd hx h2⟩, [], by simp, by simp⟩

/-- At a structural terminator with all modes off, the step pushes the
trimmed segment (necessarily non-empty: it ends with the terminator) and
resets to a clean state. -/
theorem charStep_semi (c : ScanState) (h1 : c.inLineComment = false)
    (h2 : c.inBlockComment = false) (h3 : c.inString = false) :
    charStep c ';' =
      ⟨c.results ++ [trimChars (c.buf ++ [';'])], [], false, false, false, some ';'⟩ := by
  have hpos : 0 < (trimChars (c.buf ++ [';'])).length := by
    rw [trimChars_append_term _ _ (by decide)]; simp
  unfold charStep
  rw [if_neg (by simp [h1]), if_neg (by simp [h2]),
    if_neg (by intro hq; exact absurd hq.1 (by decide)), if_pos ⟨h3, rfl⟩, if_pos hpos]
  cases c
  simp_all

/-- Dichotomy for one scanner step: either nothing is emitted and the
character is appended, or the step is a structural terminator that emits the
trimmed segment and resets the state. -/
theorem charStep_cases (c : ScanState) (ch : Char) :
    ((charStep c ch).results = c.results ∧ (charStep c ch).buf = c.buf ++ [ch]) ∨
      (c.inLineComment = false ∧ c.inBlockComment = false ∧ c.inString = false ∧
        ch = ';' ∧
        charStep c ch =
          ⟨c.results ++ [trimChars (c.buf ++ [ch])], [], false, false, false, some ';'⟩) := by
  by_cases h1 : c.inLineComment = true
  · left; unfold charStep; rw [if_pos h1]; exact ⟨rfl, rfl⟩
  · by_cases h2 : c.inBlockComment = true
    · left; unfold charStep; rw [if_neg h1, if_pos h2]; exact ⟨rfl, rfl⟩
    · by_cases h3 : ch = '"' ∧ c.prev ≠ some '\\'
      · left; unfold charStep; rw [if_neg h1, if_neg h2, if_pos h3]; exact ⟨rfl, rfl⟩
      · by_cases h4 : c.inString = false ∧ ch = ';'
        · right
          obtain ⟨hstr, rfl⟩ := h4
          exact ⟨Bool.eq_false_iff.mpr h1, Bool.eq_false_iff.mpr h2, hstr, rfl,
            charStep_semi c (Bool.eq_false_iff.mpr h1) (Bool.eq_false_iff.mpr h2) hstr⟩
        · left; unfold charStep; rw [if_neg h1, if_neg h2, if_neg h3, if_neg h4]
          exact ⟨rfl, rfl⟩

theorem charStep_results_extend (c : ScanState) (ch : Char) :
    ∃ e, (charStep c ch).results = c.results ++ e := by
  rcases charStep_cases c ch with ⟨hr, -⟩ | ⟨-, -, -, -, hstep⟩
  · exact ⟨[], by rw [hr, List.append_nil]⟩
  · exact ⟨[trimChars (c.buf ++ [ch])], by rw [hstep]⟩

theorem scanChars_results_extend (c : ScanState) (l : List Char) :
    ∃ E, (scanChars c l).results = c.results ++ E := by
  induction c, l using scanChars.induct with
  | case1 c => exact ⟨[], by rw [scanChars, List.append_nil]⟩
  | case2 c ch => rw [scanChars]; exact charStep_results_extend c ch
  | case3 c ch next rest hc ih =>
    rw [scanChars, if_pos hc]
    obtain ⟨e, he⟩ := charStep_results_extend c ch
    obtain ⟨E, hE⟩ := ih
    exact ⟨e ++ E, by rw [hE, he, List.append_assoc]⟩
  | case4 c ch next rest hc hcond ih =>
    rw [scanChars, if_neg hc, if_pos hcond]
    obtain ⟨E, hE⟩ := ih
    exact ⟨E, hE⟩
  | case5 c ch next rest hc hn1 hcond ih =>
    rw [scanChars, if_neg hc, if_neg hn1, if_pos hcond]
    obtain ⟨E, hE⟩ := ih
    exact ⟨E, hE⟩
  | case6 c ch next rest hc hn1 hn2 ih =>
    rw [scanChars, if_neg hc, if_neg hn1, if_neg hn2]
    obtain ⟨e, he⟩ := charStep_results_extend c ch
    obtain ⟨E, hE⟩ := ih
    exact ⟨e ++ E, by rw [hE, he, List.append_assoc]⟩

/-- Scanning the same character stream from two `SimRel`-related states
keeps the states related and emits the same list of statements. -/
theorem scanChars_sim (c : ScanState) (l : List Char) :
    ∀ d : ScanState, SimRel c d →
      SimRel (scanChars c l) (scanChars d l) ∧
        ∃ E, (scanChars c l).results = c.results ++ E ∧
          (scanChars d l).results = d.results ++ E := by
  induction c, l using scanChars.induct with
  | case1 c =>
    intro d h
    rw [scanChars, scanChars]
    exact ⟨h, [], by simp, by simp⟩
  | case2 c ch =>
    intro d h
    rw [scanChars, scanChars]
    exact charStep_sim c d ch h
  | case3 c ch next rest hc ih =>
    intro d h
    have hdc : d.inLineComment = true ∨ d.inBlockComment = true := by
      rcases hc with hx | hx
      · exact Or.inl (h.2.1.symm.trans hx)
      · exact Or.inr (h.2.2.1.symm.trans hx)
    obtain ⟨hrel1, e, he1, he2⟩ := charStep_sim c d ch h
    obtain ⟨hrel2, E, hE1, hE2⟩ := ih (charStep d ch) hrel1
    rw [scanChars, scanChars, if_pos hc, if_pos hdc]
    exact ⟨hrel2, e ++ E,
      by rw [hE1, he1, List.append_assoc],
      by rw [hE2, he2, List.append_assoc]⟩
  | case4 c ch next rest hc hcond ih =>
    intro d h
    obtain ⟨hs, hlc, hbc, hbuf, hback, hstar⟩ := h
    have hdc : ¬(d.inLineComment = true ∨ d.inBlockComment = true) := by
      intro hx
      apply hc
      rcases hx with hx | hx
      · exact Or.inl (hlc.trans hx)
      · exact Or.inr (hbc.trans hx)
    have hdcond : d.inString = false ∧ ch = '/' ∧ next = '/' :=
      ⟨hs.symm.trans hcond.1, hcond.2⟩
    rw [scanChars, scanChars, if_neg hc, if_neg hdc, if_pos hcond, if_pos hdcond]
    have hrel1 : SimRel
        { c with buf := c.buf ++ [ch, next], inLineComment := true, prev := some '/' }
        { d with buf := d.buf ++ [ch, next], inLineComment := true, prev := some '/' } :=
      ⟨hs, rfl, hbc, dropWhile_ws_append_congr hbuf [ch, next], Iff.rfl,
        fun hx => absurd (hbc.symm.trans hx) (fun hxx => hc (Or.inr (hbc.trans (hbc.symm.trans hx))))⟩
    obtain ⟨hrel2, E, hE1, hE2⟩ := ih _ hrel1
    exact ⟨hrel2, E, hE1, hE2⟩
  | case5 c ch next rest hc hn1 hcond ih =>
    intro d h
    obtain ⟨hs, hlc, hbc, hbuf, hback, hstar⟩ := h
    have hdc : ¬(d.inLineComment = true ∨ d.inBlockComment = true) := by
      intro hx
      apply hc
      rcases hx with hx | hx
      · exact Or.inl (hlc.trans hx)
      · exact Or.inr (hbc.trans hx)
    have hdn1 : ¬(d.inString = false ∧ ch = '/' ∧ next = '/') :=
      fun hx => hn1 ⟨hs.trans hx.1, hx.2⟩
    have hdcond : d.inString = false ∧ ch = '/' ∧ next = '*' :=
      ⟨hs.symm.trans hcond.1, hcond.2⟩
    rw [scanChars, scanChars, if_neg hc, if_neg hdc, if_neg hn1, if_neg hdn1,
      if_pos hcond, if_pos hdcond]
    have hrel1 : SimRel
        { c with buf := c.buf ++ [ch, next], inBlockComment := true, prev := some '*' }
        { d with buf := d.buf ++ [ch, next], inBlockComment := true, prev := some '*' } :=
      ⟨hs, hlc, rfl, dropWhile_ws_append_congr hbuf [ch, next], Iff.rfl, fun _ => Iff.rfl⟩
    obtain ⟨hrel2, E, hE1, hE2⟩ := ih _ hrel1
    exact ⟨hrel2, E, hE1, hE2⟩
  | case6 c ch next rest hc hn1 hn2 ih =>
    intro d h
    have hdc : ¬(d.inLineComment = true ∨ d.inBlockComment = true) := by
      intro hx
      apply hc
      rcases hx with hx | hx
      · exact Or.inl (h.2.1.trans hx)
      · exact Or.inr (h.2.2.1.trans hx)
    have hdn1 : ¬(d.inString = false ∧ ch = '/' ∧ next = '/') :=
      fun hx => hn1 ⟨h.1.trans hx.1, hx.2⟩
    have hdn2 : ¬(d.inString = false ∧ ch = '/' ∧ next = '*') :=
      fun hx => hn2 ⟨h.1.trans hx.1, hx.2⟩
    obtain ⟨hrel1, e, he1, he2⟩ := charStep_sim c d ch h
    obtain ⟨hrel2, E, hE1, hE2⟩ := ih (charStep d ch) hrel1
    rw [scanChars, scanChars, if_neg hc, if_neg hdc, if_neg hn1, if_neg hdn1,
      if_neg hn2, if_neg hdn2]
    exact ⟨hrel2, e ++ E,
      by rw [hE1, he1, List.append_assoc],
      by rw [hE2, he2, List.append_assoc]⟩

/-- The scan of a concatenation factors through the scan of the first part,
provided the first part does not end in `/` (whose two-character lookahead
would otherwise reach across the boundary). -/
theorem scanChars_append (s : ScanState) (l1 : List Char) :
    ∀ l2 : List Char, l1.getLast? ≠ some '/' →
      scanChars s (l1 ++ l2) = scanChars (scanChars s l1) l2 := by
  induction s, l1 using scanChars.induct with
  | case1 s =>
    intro l2 _
    rw [List.nil_append, scanChars]
  | case2 s ch =>
    intro l2 hlast
    have hch : ch ≠ '/' := by
      intro hx
      exact hlast (by rw [hx]; rfl)
    have e1 : scanChars s [ch] = charStep s ch := by rw [scanChars]
    cases l2 with
    | nil => rw [List.append_nil, e1, scanChars]
    | cons y ys =>
      rw [List.singleton_append, e1]
      by_cases hcom : s.inLineComment = true ∨ s.inBlockComment = true
      · rw [scanChars, if_pos hcom]
      · rw [scanChars, if_neg hcom, if_neg (fun hx => hch hx.2.1),
          if_neg (fun hx => hch hx.2.1)]
  | case3 s ch next rest hc ih =>
    intro l2 hlast
    have hlast' : (next :: rest).getLast? ≠ some '/' := by
      rwa [List.getLast?_cons_cons] at hlast
    have e2 : scanChars s (ch :: next :: rest) =
        scanChars (charStep s ch) (next :: rest) := by
      rw [scanChars, if_pos hc]
    have e1 : scanChars s ((ch :: next :: rest) ++ l2) =
        scanChars (charStep s ch) ((next :: rest) ++ l2) := by
      simp only [List.cons_append]
      rw [scanChars, if_pos hc]
    rw [e1, e2]
    exact ih l2 hlast'
  | case4 s ch next rest hc hcond ih =>
    intro l2 hlast
    cases rest with
    | nil =>
      have hx : (ch :: next :: ([] : List Char)).getLast? = some '/' := by
        rw [hcond.2.2]; rfl
      exact absurd hx hlast
    | cons y ys =>
      have hlast' : (y :: ys).getLast? ≠ some '/' := by
        rwa [List.getLast?_cons_cons, List.getLast?_cons_cons] at hlast
      have e2 : scanChars s (ch :: next :: y :: ys) =
          scanChars { s with buf := s.buf ++ [ch, next],
                             inLineComment := true, prev := some '/' } (y :: ys) := by
        rw [scanChars, if_neg hc, if_pos hcond]
      have e1 : scanChars s ((ch :: next :: y :: ys) ++ l2) =
          scanChars { s with buf := s.buf ++ [ch, next],
                             inLineComment := true, prev := some '/' } ((y :: ys) ++ l2) := by
        simp only [List.cons_append]
        rw [scanChars, if_neg hc, if_pos hcond]
      rw [e1, e2]
      exact ih l2 hlast'
  | case5 s ch next rest hc hn1 hcond ih =>
    intro l2 hlast
    cases rest with
    | nil =>
      have e2 : scanChars s (ch :: next :: ([] : List Char)) =
          { s with buf := s.buf ++ [ch, next],
                   inBlockComment := true, prev := some '*' } := by
        conv_lhs => rw [scanChars]
        rw [if_neg hc, if_neg hn1, if_pos hcond, scanChars]
      have e1 : scanChars s ((ch :: next :: ([] : List Char)) ++ l2) =
          scanChars { s with buf := s.buf ++ [ch, next],
                             inBlockComment := true, prev := some '*' } l2 := by
        cases l2 with
        | nil => rw [List.append_nil, e2, scanChars]
        | cons z zs =>
          simp only [List.cons_append, List.nil_append]
          rw [scanChars, if_neg hc, if_neg hn1, if_pos hcond]
      rw [e1, e2]
    | cons y ys =>
      have hlast' : (y :: ys).getLast? ≠ some '/' := by
        rwa [List.getLast?_cons_cons, List.getLast?_cons_cons] at hlast
      have e2 : scanChars s (ch :: next :: y :: ys) =
          scanChars { s with buf := s.buf ++ [ch, next],
                             inBlockComment := true, prev := some '*' } (y :: ys) := by
        rw [scanChars, if_neg hc, if_neg hn1, if_pos hcond]
      have e1 : scanChars s ((ch :: next :: y :: ys) ++ l2) =
          scanChars { s with buf := s.buf ++ [ch, next],
                             inBlockComment := true, prev := some '*' } ((y :: ys) ++ l2) := by
        simp only [List.cons_append]
        rw [scanChars, if_neg hc, if_neg hn1, if_pos hcond]
      rw [e1, e2]
      exact ih l2 hlast'
  | case6 s ch next rest hc hn1 hn2 ih =>
    intro l2 hlast
    have hlast' : (next :: rest).getLast? ≠ some '/' := by
      rwa [List.getLast?_cons_cons] at hlast
    have e2 : scanChars s (ch :: next :: rest) =
        scanChars (charStep s ch) (next :: rest) := by
      rw [scanChars, if_neg hc, if_neg hn1, if_neg hn2]
    have e1 : scanChars s ((ch :: next :: rest) ++ l2) =
        scanChars (charStep s ch) ((next :: rest) ++ l2) := by
      simp only [List.cons_append]
      rw [scanChars, if_neg hc, if_neg hn1, if_neg hn2]
    rw [e1, e2]
    exact ih l2 hlast'

theorem append_cons_char (b : List Char) (x : Char) (t : List Char) :
    (b ++ [x]) ++ t = b ++ x :: t := by
  simp

theorem append_cons2_char (b : List Char) (x y : Char) (t : List Char) :
    (b ++ [x, y]) ++ t = b ++ x :: y :: t := by
  simp

/-- If a scan emits at least one statement, the input splits at the first
structural terminator: the prefix `u` (ending in that terminator) drives the
scanner from `s` to a clean post-emission state having emitted exactly the
trimmed first segment, and the scan of the whole input factors through that
state on the remainder `v`. -/
theorem scanChars_first_emit (c : ScanState) (l : List Char) :
    ∀ E : List (List Char),
      (scanChars c l).results = c.results ++ E → E ≠ [] →
      ∃ u v E',
        l = u ++ v ∧
        u.getLast? = some ';' ∧
        scanChars c u =
          ⟨c.results ++ [trimChars (c.buf ++ u)], [], false, false, false, some ';'⟩ ∧
        E = trimChars (c.buf ++ u) :: E' ∧
        scanChars c l =
          scanChars
            (⟨c.results ++ [trimChars (c.buf ++ u)], [], false, false, false,
              some ';'⟩ : ScanState) v := by
  induction c, l using scanChars.induct with
  | case1 c =>
    intro E hE hne
    rw [scanChars] at hE
    have hEnil : E = [] := by
      have h0 : c.results ++ [] = c.results ++ E := by rw [List.append_nil]; exact hE
      exact (List.append_cancel_left h0).symm
    exact absurd hEnil hne
  | case2 c ch =>
    intro E hE hne
    rw [scanChars] at hE
    rcases charStep_cases c ch with ⟨hr, -⟩ | ⟨h1, h2, h3, hch, hstep⟩
    · rw [hr] at hE
      have hEnil : E = [] := by
        have h0 : c.results ++ [] = c.results ++ E := by rw [List.append_nil]; exact hE
        exact (List.append_cancel_left h0).symm
      exact absurd hEnil hne
    · subst hch
      rw [hstep] at hE
      have hEeq : [trimChars (c.buf ++ [';'])] = E := List.append_cancel_left hE
      refine ⟨[';'], [], [], rfl, rfl, ?_, ?_, ?_⟩
      · rw [scanChars]; exact hstep
      · exact hEeq.symm
      · rw [scanChars, scanChars, hstep]
  | case3 c ch next rest hc ih =>
    intro E hE hne
    have e0 : scanChars c (ch :: next :: rest) =
        scanChars (charStep c ch) (next :: rest) := by
      rw [scanChars, if_pos hc]
    rcases charStep_cases c ch with ⟨hr, hb⟩ | ⟨h1, h2, -, -, -⟩
    · rw [e0] at hE
      have hE2 : (scanChars (charStep c ch) (next :: rest)).results =
          (charStep c ch).results ++ E := by
        rw [hr]; exact hE
      obtain ⟨u', v, E', hl, hulast, hscanu, hEform, hcont⟩ := ih E hE2 hne
      have hune : u' ≠ [] := by
        intro hx; rw [hx] at hulast; cases hulast
      obtain ⟨x, xs, rfl⟩ : ∃ x xs, u' = x :: xs := by
        cases u' with
        | nil => exact absurd rfl hune
        | cons x xs => exact ⟨x, xs, rfl⟩
      refine ⟨ch :: x :: xs, v, E', ?_, ?_, ?_, ?_, ?_⟩
      · rw [List.cons_append, hl]
      · rw [List.getLast?_cons_cons]; exact hulast
      · have e1 : scanChars c (ch :: x :: xs) = scanChars (charStep c ch) (x :: xs) := by
          rw [scanChars, if_pos hc]
        rw [e1, hscanu, hr, hb, append_cons_char]
      · rw [hEform, hb, append_cons_char]
      · rw [e0, hcont, hr, hb, append_cons_char]
    · rcases hc with hx | hx
      · rw [h1] at hx; cases hx
      · rw [h2] at hx; cases hx
  | case4 c ch next rest hc hcond ih =>
    intro E hE hne
    have e0 : scanChars c (ch :: next :: rest) =
        scanChars { c with buf := c.buf ++ [ch, next],
                           inLineComment := true, prev := some '/' } rest := by
      rw [scanChars, if_neg hc, if_pos hcond]
    rw [e0] at hE
    obtain ⟨u', v, E', hl, hulast, hscanu, hEform, hcont⟩ := ih E hE hne
    refine ⟨ch :: next :: u', v, E', ?_, ?_, ?_, ?_, ?_⟩
    · rw [List.cons_append, List.cons_append, hl]
    · have hune : u' ≠ [] := by
        intro hx; rw [hx] at hulast; cases hulast
      obtain ⟨x, xs, rfl⟩ : ∃ x xs, u' = x :: xs := by
        cases u' with
        | nil => exact absurd rfl hune
        | cons x xs => exact ⟨x, xs, rfl⟩
      rw [List.getLast?_cons_cons, List.getLast?_cons_cons]; exact hulast
    · have hune : u' ≠ [] := by
        intro hx; rw [hx] at hulast; cases hulast
      obtain ⟨x, xs, rfl⟩ : ∃ x xs, u' = x :: xs := by
        cases u' with
        | nil => exact absurd rfl hune
        | cons x xs => exact ⟨x, xs, rfl⟩
      have e1 : scanChars c (ch :: next :: x :: xs) =
          scanChars { c with buf := c.buf ++ [ch, next],
                             inLineComment := true, prev := some '/' } (x :: xs) := by
        rw [scanChars, if_neg hc, if_pos hcond]
      rw [e1, hscanu, append_cons2_char]
    · rw [hEform, append_cons2_char]
    · rw [e0, hcont, append_cons2_char]
  | case5 c ch next rest hc hn1 hcond ih =>
    intro E hE hne
    have e0 : scanChars c (ch :: next :: rest) =
        scanChars { c with buf := c.buf ++ [ch, next],
                           inBlockComment := true, prev := some '*' } rest := by
      rw [scanChars, if_neg hc, if_neg hn1, if_pos hcond]
    rw [e0] at hE
    obtain ⟨u', v, E', hl, hulast, hscanu, hEform, hcont⟩ := ih E hE hne
    refine ⟨ch :: next :: u', v, E', ?_, ?_, ?_, ?_, ?_⟩
    · rw [List.cons_append, List.cons_append, hl]
    · have hune : u' ≠ [] := by
        intro hx; rw [hx] at hulast; cases hulast
      obtain ⟨x, xs, rfl⟩ : ∃ x xs, u' = x :: xs := by
        cases u' with
        | nil => exact absurd rfl hune
        | cons x xs => exact ⟨x, xs, rfl⟩
      rw [List.getLast?_cons_cons, List.getLast?_cons_cons]; exact hulast
    · have hune : u' ≠ [] := by
        intro hx; rw [hx] at hulast; cases hulast
      obtain ⟨x, xs, rfl⟩ : ∃ x xs, u' = x :: xs := by
        cases u' with
        | nil => exact absurd rfl hune
        | cons x xs => exact ⟨x, xs, rfl⟩
      have e1 : scanChars c (ch :: next :: x :: xs) =
          scanChars { c with buf := c.buf ++ [ch, next],
                             inBlockComment := true, prev := some '*' } (x :: xs) := by
        rw [scanChars, if_neg hc, if_neg hn1, if_pos hcond]
      rw [e1, hscanu, append_cons2_char]
    · rw [hEform, append_cons2_char]
    · rw [e0, hcont, append_cons2_char]
  | case6 c ch next rest hc hn1 hn2 ih =>
    intro E hE hne
    have e0 : scanChars c (ch :: next :: rest) =
        scanChars (charStep c ch) (next :: rest) := by
      rw [scanChars, if_neg hc, if_neg hn1, if_neg hn2]
    rcases charStep_cases c ch with ⟨hr, hb⟩ | ⟨h1, h2, h3, hch, hstep⟩
    · rw [e0] at hE
      have hE2 : (scanChars (charStep c ch) (next :: rest)).results =
          (charStep c ch).results ++ E := by
        rw [hr]; exact hE
      obtain ⟨u', v, E', hl, hulast, hscanu, hEform, hcont⟩ := ih E hE2 hne
      have hune : u' ≠ [] := by
        intro hx; rw [hx] at hulast; cases hulast
      obtain ⟨x, xs, rfl⟩ : ∃ x xs, u' = x :: xs := by
        cases u' with
        | nil => exact absurd rfl hune
        | cons x xs => exact ⟨x, xs, rfl⟩
      have hl2 : next :: rest = x :: (xs ++ v) := by
        rw [List.cons_append] at hl; exact hl
      have hnx : next = x := ((List.cons.injEq next rest x (xs ++ v)).mp hl2).1
      subst hnx
      refine ⟨ch :: next :: xs, v, E', ?_, ?_, ?_, ?_, ?_⟩
      · rw [List.cons_append, hl]
      · rw [List.getLast?_cons_cons]; exact hulast
      · have e1 : scanChars c (ch :: next :: xs) =
            scanChars (charStep c ch) (next :: xs) := by
          rw [scanChars, if_neg hc, if_neg hn1, if_neg hn2]
        rw [e1, hscanu, hr, hb, append_cons_char]
      · rw [hEform, hb, append_cons_char]
      · rw [e0, hcont, hr, hb, append_cons_char]
    · subst hch
      rw [e0] at hE
      obtain ⟨E2, hE2⟩ := scanChars_results_extend (charStep c ';') (next :: rest)
      rw [hE2, hstep] at hE
      have hEeq : E = [trimChars (c.buf ++ [';'])] ++ E2 := by
        have h0 : c.results ++ ([trimChars (c.buf ++ [';'])] ++ E2) = c.results ++ E := by
          rw [← List.append_assoc]; exact hE
        exact (List.append_cancel_left h0).symm
      refine ⟨[';'], next :: rest, E2, rfl, rfl, ?_, ?_, ?_⟩
      · rw [scanChars]; exact hstep
      · exact hEeq
      · rw [e0, hstep]

/-- Concatenation of a list of statements. -/
def listJoin : List (List Char) → List Char
  | [] => []
  | x :: xs => x ++ listJoin xs

theorem joinStatements_assignIds (n : Nat) (rs : List (List Char)) :
    joinStatements (assignIds n rs) = listJoin rs := by
  induction rs generalizing n with
  | nil => rfl
  | cons r rs ih =>
    show r ++ joinStatements (assignIds (n + 1) rs) = r ++ listJoin rs
    rw [ih]

/-- A state from which a statement replay can start: no mode active, only
whitespace pending, and a lookback that cannot trigger the escape rule. -/
def QuasiClean (s : ScanState) : Prop :=
  s.inString = false ∧ s.inLineComment = false ∧ s.inBlockComment = false ∧
  (∀ ch ∈ s.buf, ch.isWhitespace = true) ∧ s.prev ≠ some '\\'

/-- Replay lemma: if scanning `l` from a quasi-clean state `s` succeeds
(leaves only whitespace in the buffer) and emits the statements `E`, then
scanning the concatenation of `E` from any quasi-clean state `t` emits
exactly `E` again and ends quasi-clean. -/
theorem scan_decomp :
    ∀ (n : Nat) (l : List Char), l.length ≤ n →
    ∀ (s t : ScanState) (E : List (List Char)),
      QuasiClean s → QuasiClean t →
      (scanChars s l).results = s.results ++ E →
      trimChars (scanChars s l).buf = [] →
      (scanChars t (listJoin E)).results = t.results ++ E ∧
        QuasiClean (scanChars t (listJoin E)) := by
  intro n
  induction n with
  | zero =>
    intro l hlen s t E hqs hqt hE hsucc
    have hl : l = [] := List.length_eq_zero.mp (Nat.le_zero.mp hlen)
    subst hl
    rw [scanChars] at hE
    have hEnil : E = [] := by
      have h0 : s.results ++ [] = s.results ++ E := by rw [List.append_nil]; exact hE
      exact (List.append_cancel_left h0).symm
    subst hEnil
    refine ⟨?_, ?_⟩
    · rw [show listJoin [] = [] from rfl, scanChars, List.append_nil]
    · rw [show listJoin [] = [] from rfl, scanChars]; exact hqt
  | succ n ih =>
    intro l hlen s t E hqs hqt hE hsucc
    by_cases hEnil : E = []
    · subst hEnil
      refine ⟨?_, ?_⟩
      · rw [show listJoin [] = [] from rfl, scanChars, List.append_nil]
      · rw [show listJoin [] = [] from rfl, scanChars]; exact hqt
    · obtain ⟨u, v, E', hluv, hulast, hscanu, hEform, hcont⟩ :=
        scanChars_first_emit s l E hE hEnil
      obtain ⟨hqs1, hqs2, hqs3, hqs4, hqs5⟩ := hqs
      obtain ⟨hqt1, hqt2, hqt3, hqt4, hqt5⟩ := hqt
      have hune : u ≠ [] := by
        intro hx; rw [hx] at hulast; cases hulast
      -- the leading whitespace of the source buffer does not affect the trim
      have htriml : trimChars (s.buf ++ u) = trimChars u :=
        trimChars_ws_leading s.buf u hqs4
      rw [htriml] at hscanu hEform hcont
      -- u ends with its terminator
      have hu0 : u.dropLast ++ [';'] = u := List.dropLast_append_getLast? ';' hulast
      have htrim2 : trimChars u = u.dropWhile Char.isWhitespace := by
        conv_lhs => rw [← hu0]
        rw [trimChars_append_term _ _ (by decide)]
        conv_rhs => rw [← hu0]
        rw [dropWhile_append_term _ _ (by decide)]
      have hwu : u.takeWhile Char.isWhitespace ++ trimChars u = u := by
        rw [htrim2]; exact List.takeWhile_append_dropWhile _ u
      have ht1last : (trimChars u).getLast? = some ';' := by
        conv_lhs => rw [← hu0, trimChars_append_term _ _ (by decide)]
        exact List.getLast?_concat _
      have ht1ne_slash : (trimChars u).getLast? ≠ some '/' := by
        rw [ht1last]
        intro hx
        exact absurd hx (by decide)
      have hws_last : (u.takeWhile Char.isWhitespace).getLast? ≠ some '/' := by
        intro hx
        have hmem : '/' ∈ u.takeWhile Char.isWhitespace :=
          List.mem_of_getLast?_eq_some hx
        exact absurd (List.mem_takeWhile_imp hmem) (by decide)
      -- scan the leading whitespace of u
      obtain ⟨p2, hscanw, hp2⟩ := scanChars_ws (u.takeWhile Char.isWhitespace) s hqs2 hqs3
        (fun ch hch => List.mem_takeWhile_imp hch)
      have hp2ne : p2 ≠ some '\\' := by
        rcases hp2 with hp | ⟨cch, hcw, rfl⟩
        · rw [hp]; exact hqs5
        · intro hx
          have hcc : cch = '\\' := by
            injection hx
          rw [hcc] at hcw
          exact absurd hcw (by decide)
      have hsplit : scanChars s u =
          scanChars (scanChars s (u.takeWhile Char.isWhitespace)) (trimChars u) := by
        conv_lhs => rw [← hwu]
        exact scanChars_append s _ (trimChars u) hws_last
      -- relate the post-whitespace source state with t
      have hrel : SimRel (scanChars s (u.takeWhile Char.isWhitespace)) t := by
        rw [hscanw]
        refine ⟨?_, hqs2.trans hqt2.symm, hqs3.trans hqt3.symm, ?_, ?_, ?_⟩
        · show s.inString = t.inString
          rw [hqs1, hqt1]
        · show (s.buf ++ u.takeWhile Char.isWhitespace).dropWhile Char.isWhitespace =
            t.buf.dropWhile Char.isWhitespace
          rw [List.dropWhile_eq_nil_iff.mpr hqt4, List.dropWhile_eq_nil_iff.mpr ?all]
          case all =>
            intro ch hch
            rcases List.mem_append.mp hch with hm | hm
            · exact hqs4 ch hm
            · exact List.mem_takeWhile_imp hm
        · exact iff_of_false hp2ne hqt5
        · intro hx
          exact absurd (hqs3.symm.trans hx) (by decide)
      obtain ⟨hrelOut, Ec, hEc1, hEc2⟩ :=
        scanChars_sim (scanChars s (u.takeWhile Char.isWhitespace)) (trimChars u) t hrel
      have hOutEq : scanChars (scanChars s (u.takeWhile Char.isWhitespace)) (trimChars u) =
          ⟨s.results ++ [trimChars u], [], false, false, false, some ';'⟩ := by
        rw [← hsplit]; exact hscanu
      have hsw_results : (scanChars s (u.takeWhile Char.isWhitespace)).results = s.results := by
        rw [hscanw]
      have hEc : Ec = [trimChars u] := by
        rw [hOutEq, hsw_results] at hEc1
        exact (List.append_cancel_left hEc1).symm
      have ht3res : (scanChars t (trimChars u)).results = t.results ++ [trimChars u] := by
        rw [hEc2, hEc]
      -- the replay state is quasi-clean again
      have hqt3' : QuasiClean (scanChars t (trimChars u)) := by
        obtain ⟨r1, r2, r3, r4, r5, r6⟩ := hrelOut
        rw [hOutEq] at r1 r2 r3 r4 r5
        refine ⟨r1.symm, r2.symm, r3.symm, ?_, ?_⟩
        · exact List.dropWhile_eq_nil_iff.mp (by rw [← r4]; rfl)
        · intro hx
          exact absurd (show (some ';' : Option Char) = some '\\' from r5.mpr hx)
            (by decide)
      -- apply the induction hypothesis to the remainder
      have hvlen : v.length ≤ n := by
        have hll : l.length = u.length + v.length := by
          rw [hluv, List.length_append]
        have hupos : 0 < u.length := List.length_pos.mpr hune
        omega
      have hresv :
          (scanChars (⟨s.results ++ [trimChars u], [], false, false, false,
            some ';'⟩ : ScanState) v).results =
          (⟨s.results ++ [trimChars u], [], false, false, false,
            some ';'⟩ : ScanState).results ++ E' := by
        have h0 := hE
        rw [hcont] at h0
        rw [h0, hEform]
        show s.results ++ trimChars u :: E' = (s.results ++ [trimChars u]) ++ E'
        rw [List.append_cons]
      have hsuccv :
          trimChars (scanChars (⟨s.results ++ [trimChars u], [], false, false, false,
            some ';'⟩ : ScanState) v).buf = [] := by
        rw [← hcont]; exact hsucc
      obtain ⟨hfin1, hfin2⟩ := ih v hvlen
        ⟨s.results ++ [trimChars u], [], false, false, false, some ';'⟩
        (scanChars t (trimChars u)) E'
        ⟨rfl, rfl, rfl, fun ch hch => absurd hch (List.not_mem_nil ch),
          fun hx => absurd (show (some ';' : Option Char) = some '\\' from hx) (by decide)⟩
        hqt3' hresv hsuccv
      -- assemble the concatenated replay
      have hjoin : listJoin E = trimChars u ++ listJoin E' := by
        rw [hEform]; rfl
      have happ : scanChars t (trimChars u ++ listJoin E') =
          scanChars (scanChars t (trimChars u)) (listJoin E') :=
        scanChars_append t (trimChars u) (listJoin E') ht1ne_slash
      refine ⟨?_, ?_⟩
      · rw [hjoin, happ, hfin1, ht3res, hEform]
        simp
      · rw [hjoin, happ]
        exact hfin2

/-- C9: round-trip idempotence — on any successful split, concatenating the
returned statements in order (each retains its terminator) and splitting the
concatenation again returns the identical ordered mapping. -/
theorem claim_C9_roundtrip (d : List Char) (m : List (String × List Char))
    (h : splitCedarPolicies d = .ok m) :
    splitCedarPolicies (joinStatements m) = .ok m := by
  obtain ⟨hsucc, hm⟩ := splitCedarPolicies_ok d m h
  have hgood : GoodResults (scanChars initState d).results :=
    scanChars_goodResults initState d (fun p hp => absurd hp (List.not_mem_nil p))
  have hfilter : (scanChars initState d).results.filter (fun p => decide (0 < p.length)) =
      (scanChars initState d).results := by
    rw [List.filter_eq_self]
    intro p hp
    obtain ⟨b, rfl⟩ := hgood p hp
    simp
  rw [hfilter] at hm
  subst hm
  have hresinit : (scanChars initState d).results =
      initState.results ++ (scanChars initState d).results := by
    rw [show initState.results = [] from rfl, List.nil_append]
  have hq : QuasiClean initState :=
    ⟨rfl, rfl, rfl, fun ch hch => absurd hch (List.not_mem_nil ch), by decide⟩
  obtain ⟨hres, hquasi⟩ := scan_decomp d.length d le_rfl initState initState
    (scanChars initState d).results hq hq hresinit hsucc
  rw [joinStatements_assignIds]
  unfold splitCedarPolicies
  have htrim0 :
      trimChars (scanChars initState (listJoin (scanChars initState d).results)).buf = [] :=
    (trimChars_eq_nil_iff _).mpr hquasi.2.2.2.1
  rw [if_neg (by rw [htrim0]; simp)]
  rw [hres, show initState.results = [] from rfl, List.nil_append, hfilter]

/-- Witness for C9 at a concrete one-statement input. -/
theorem claim_C9_witness :
    splitCedarPolicies (joinStatements [("policy_0", "a;".toList)]) =
      .ok [("policy_0", "a;".toList)] :=
  claim_C9_roundtrip "a;".toList [("policy_0", "a;".toList)] (by decide)

end Janus
